import Mathlib

/-!
Verification of the CSV sampler/profiler and chart-engine aggregation
routines of the VizAssistant repository.

The TypeScript sources are shallowly embedded: JavaScript numbers are
modelled by `ℚ` (and by `ℝ` where `Math.sqrt` is involved), JavaScript
arrays by `List`, possibly-undefined values by `Option`, and the
promise-based `analyzeCSV` as an `Except`.  Array indexing with an
integer index is modelled over `ℤ` so that "the access is in bounds"
remains a meaningful statement.
-/

namespace VizAssistant

/-! ## Chart-engine numeric helpers (ChartRenderer) -/

/-- `scale`: maps a value from data domain `[min, max]` to pixel range
`[outMin, outMax]`; a degenerate domain yields the midpoint of the range. -/
def scale (val mn mx outMin outMax : ℚ) : ℚ :=
  if mx = mn then (outMin + outMax) / 2
  else outMin + ((val - mn) / (mx - mn)) * (outMax - outMin)

/-- `Math.min(...data)` for a non-empty array (`0` as an unused default). -/
def listMin : List ℚ → ℚ
  | [] => 0
  | x :: xs => xs.foldl min x

/-- `Math.max(...data)` for a non-empty array (`0` as an unused default). -/
def listMax : List ℚ → ℚ
  | [] => 0
  | x :: xs => xs.foldl max x

/-- The five-number summary record returned by `getQuantiles`. -/
structure FiveNum where
  min : ℚ
  q1 : ℚ
  median : ℚ
  q3 : ℚ
  max : ℚ
deriving DecidableEq, Repr

/-- `getQuantiles`: sorts a copy of the data ascending and reads the
five-number summary at the floor indices `⌊n·0.25⌋`, `⌊n·0.5⌋`, `⌊n·0.75⌋`
(no interpolation); the empty array yields the all-zero record. -/
def getQuantiles (data : List ℚ) : FiveNum :=
  if data.length = 0 then ⟨0, 0, 0, 0, 0⟩
  else
    let sorted := data.insertionSort (· ≤ ·)
    { min := sorted.getD 0 0
      q1 := sorted.getD (⌊(sorted.length : ℚ) * (0.25 : ℚ)⌋).toNat 0
      median := sorted.getD (⌊(sorted.length : ℚ) * (0.5 : ℚ)⌋).toNat 0
      q3 := sorted.getD (⌊(sorted.length : ℚ) * (0.75 : ℚ)⌋).toNat 0
      max := sorted.getD (sorted.length - 1) 0 }

/-- `max - min || 1` in `getDensity`: a zero range falls back to `1`. -/
def jsRange (data : List ℚ) : ℚ :=
  if listMax data - listMin data = 0 then 1 else listMax data - listMin data

/-- The bin index `Math.min(Math.floor(((v - min) / range) * binCount), binCount - 1)`
computed by `getDensity`, kept in `ℤ` so that in-boundedness is a statement. -/
def densityIdx (mn range : ℚ) (bc : ℕ) (v : ℚ) : ℤ :=
  min ⌊((v - mn) / range) * (bc : ℚ)⌋ ((bc : ℤ) - 1)

/-- The contents of a bin array after the `data.forEach(v => bins[idx]++)`
loop: bin `i` holds the number of values whose index is `i`. -/
def countBins (idx : ℚ → ℤ) (bc : ℕ) (data : List ℚ) : List ℕ :=
  (List.range bc).map fun i : ℕ => data.countP fun v => idx v = (i : ℤ)

/-- JavaScript indexing `arr[j]`: `undefined` (`none`) when out of range. -/
def jsIdx (arr : List ℕ) (j : ℤ) : Option ℕ :=
  if j < 0 then none else arr.get? j.toNat

/-- JavaScript `a || d` applied to an optionally-present bin count:
`undefined` (out of range) and `0` are both falsy, so both yield `d`. -/
def jsOr (v : Option ℕ) (d : ℕ) : ℕ :=
  match v with
  | none => d
  | some 0 => d
  | some k => k

/-- The smoothing pass `bins.map((val, i, arr) => (arr[i-1] || val) + val*2 + (arr[i+1] || val)) / 4`
of `getDensity`. -/
def smoothBins (arr : List ℕ) : List ℚ :=
  (List.range arr.length).map fun i =>
    let val := arr.getD i 0
    let prev := jsOr (jsIdx arr ((i : ℤ) - 1)) val
    let next := jsOr (jsIdx arr ((i : ℤ) + 1)) val
    ((prev : ℚ) + (val : ℚ) * 2 + (next : ℚ)) / 4

/-- The bin counts computed by `getDensity` for the given data: its `min` is
`listMin data`, its `range` is `jsRange data`. -/
def densityBins (data : List ℚ) (bc : ℕ) : List ℕ :=
  countBins (densityIdx (listMin data) (jsRange data) bc) bc data

/-- `getDensity`: bin the values of `[min, max]` into `bc` bins, smooth the
counts, and pair each smoothed count (the `y` field) with the left edge
`min + (i / binCount) * range` of its bin (the `x` field). -/
def getDensity (data : List ℚ) (bc : ℕ) : List (ℚ × ℚ) :=
  if data.length = 0 then []
  else
    (List.range (smoothBins (densityBins data bc)).length).map fun i : ℕ =>
      (listMin data + ((i : ℚ) / (bc : ℚ)) * jsRange data,
       (smoothBins (densityBins data bc)).getD i 0)

/-- Smoothing as the claim states it: an out-of-range neighbour index
reuses the current bin's count, while every in-range neighbour contributes
its actual count. -/
def smoothClaim (arr : List ℕ) : List ℚ :=
  (List.range arr.length).map fun i =>
    let c := arr.getD i 0
    let prev := if 1 ≤ i then arr.getD (i - 1) 0 else c
    let next := if i + 1 < arr.length then arr.getD (i + 1) 0 else c
    ((prev : ℚ) + 2 * (c : ℚ) + (next : ℚ)) / 4

/-- Smoothing as the amended claim states it: a neighbour contributes its
actual count only when its index is in range *and* its count is nonzero;
an out-of-range or zero-count neighbour is replaced by the current bin's
count (JavaScript `||` treats a zero count as absent). -/
def smoothAmended (arr : List ℕ) : List ℚ :=
  (List.range arr.length).map fun i =>
    let c := arr.getD i 0
    let prev := if 1 ≤ i ∧ arr.getD (i - 1) 0 ≠ 0 then arr.getD (i - 1) 0 else c
    let next := if i + 1 < arr.length ∧ arr.getD (i + 1) 0 ≠ 0 then arr.getD (i + 1) 0 else c
    ((prev : ℚ) + 2 * (c : ℚ) + (next : ℚ)) / 4

/-! ## Histogram branch of the chart renderer -/

/-- `const binSize = (max - min) / binCount || 1` with `binCount = 15`. -/
def histBinSize (vals : List ℚ) : ℚ :=
  if (listMax vals - listMin vals) / 15 = 0 then 1
  else (listMax vals - listMin vals) / 15

/-- The histogram bin index
`Math.min(Math.floor((v - min) / binSize), binCount - 1)` with `binCount = 15`. -/
def histIdx (vals : List ℚ) (v : ℚ) : ℤ :=
  min ⌊(v - listMin vals) / histBinSize vals⌋ 14

/-- The 15 histogram bin counts. -/
def histBins (vals : List ℚ) : List ℕ :=
  countBins (histIdx vals) 15 vals

/-! ## Pearson correlation (heatmap branch)

`Math.sqrt` forces this corner of the model into `ℝ`. -/

/-- `calculateCorrelation`: Pearson's formula with two guards, `0` when the
lengths differ or are zero and `0` when the denominator is zero. -/
noncomputable def calculateCorrelation (x y : List ℝ) : ℝ :=
  if x.length ≠ y.length ∨ x.length = 0 then 0
  else
    let n : ℝ := (x.length : ℝ)
    let sumX := x.sum
    let sumY := y.sum
    let sumXY := ((x.zip y).map fun p => p.1 * p.2).sum
    let sumX2 := (x.map fun v => v * v).sum
    let sumY2 := (y.map fun v => v * v).sum
    let numerator := n * sumXY - sumX * sumY
    let denominator := Real.sqrt ((n * sumX2 - sumX * sumX) * (n * sumY2 - sumY * sumY))
    if denominator = 0 then 0 else numerator / denominator

/-- The heatmap correlation matrix in row-major order: entry `i * size + j`
is the correlation of columns `i` and `j` (of the up-to-6 numeric columns). -/
noncomputable def heatmapMatrix (cols : List (List ℝ)) : List ℝ :=
  (List.range cols.length).flatMap fun i =>
    (List.range cols.length).map fun j =>
      calculateCorrelation (cols.getD i []) (cols.getD j [])

/-! ## Sampler/profiler (`analyzeCSV`)

The promise is modelled as `Except`: `reject` is `Except.error`, `resolve`
is `Except.ok`.  The function receives the decoded text of the first-chunk
prefix together with the file's byte size. -/

/-- `CHUNK_SIZE = 50 * 1024`: only this many bytes of the file are read. -/
def CHUNK_SIZE : ℕ := 50 * 1024

/-- JavaScript `split(sep)` on the character list of a string. -/
def splitOnChar (sep : Char) : List Char → List (List Char)
  | [] => [[]]
  | c :: cs =>
      let r := splitOnChar sep cs
      if c = sep then [] :: r
      else
        match r with
        | [] => [[c]]
        | t :: ts => (c :: t) :: ts

/-- JavaScript `text.split(sep)` (structural model of `String.splitOn` for a
one-character separator). -/
def jsSplit (sep : Char) (s : String) : List String :=
  (splitOnChar sep s.data).map fun cs => ⟨cs⟩

/-- JavaScript `trim()`: strip leading and trailing whitespace. -/
def jsTrim (s : String) : String :=
  ⟨((s.data.dropWhile Char.isWhitespace).reverse.dropWhile Char.isWhitespace).reverse⟩

/-- Line splitting of the decoded prefix: split on newline, drop the last
(possibly cut-off) line when the file is larger than one chunk, then drop
blank/whitespace-only lines. -/
def splitCSVLines (text : String) (fileSize : ℕ) : List String :=
  let lines := jsSplit '\n' text
  let lines := if fileSize > CHUNK_SIZE then lines.dropLast else lines
  lines.filter fun l => decide (0 < (jsTrim l).length)

/-- The estimated total row count: extrapolated from the file size when the
file is larger than one chunk, else the exact sampled count minus the header. -/
def estimatedTotalRows (lines : List String) (fileSize : ℕ) : ℕ :=
  if fileSize > CHUNK_SIZE
  then (⌊((fileSize : ℚ) / (CHUNK_SIZE : ℚ)) * (lines.length : ℚ)⌋).toNat
  else lines.length - 1

/-- Models JavaScript `Number()` on the plain decimal literals this code
feeds it (already-trimmed cell text): optional sign, digits with at most
one decimal point; `none` models `NaN`; the empty string parses as `0`. -/
def jsNum (s : String) : Option ℚ :=
  let natOfDigits : List Char → ℕ := fun cs => cs.foldl (fun n c => 10 * n + (c.toNat - 48)) 0
  let core : List Char → Option ℚ := fun cs =>
    let intPart := cs.takeWhile Char.isDigit
    let rest := cs.dropWhile Char.isDigit
    match rest with
    | [] => if intPart = [] then none else some ((natOfDigits intPart : ℚ))
    | '.' :: frac =>
        if frac.all Char.isDigit ∧ intPart ++ frac ≠ [] then
          some ((natOfDigits intPart : ℚ) + (natOfDigits frac : ℚ) / (10 : ℚ) ^ frac.length)
        else none
    | _ => none
  if s = "" then some 0
  else
    match s.data with
    | '-' :: cs => (core cs).map fun q => -q
    | '+' :: cs => core cs
    | cs => core cs

/-- `row[index]?.trim()`: `none` models `undefined` for a short row. -/
def cellVal (row : List String) (i : ℕ) : Option String :=
  (row.get? i).map jsTrim

/-- Whether a sampled cell passes `!isNaN(Number(val)) && val !== ''`. -/
def numericCell (v? : Option String) : Bool :=
  match v? with
  | none => false
  | some v => (jsNum v).isSome && v != ""

/-- Column kind inferred by the profiler. -/
inductive ColType where
  | numeric
  | categorical
deriving DecidableEq, Repr

/-- One entry of the profiler's `columns` array. -/
structure ColumnProfile where
  name : String
  type : ColType
  uniqueCount : ℕ
  sample : List (Option String)
deriving DecidableEq, Repr

/-- The resolved dataset summary.  A parsed data cell is `none` for a JS
`undefined`, `Sum.inr q` for a cell stored as a number, `Sum.inl s` for a
cell kept as a string; each row is aligned with the header list. -/
structure DatasetStats where
  rowCount : ℕ
  colCount : ℕ
  columns : List ColumnProfile
  data : List (List (Option (String ⊕ ℚ)))
deriving DecidableEq, Repr

/-- The summary built in the success path of `analyzeCSV`. -/
def buildStats (text : String) (fileSize : ℕ) : DatasetStats :=
  let lines := splitCSVLines text fileSize
  let headers := (jsSplit ',' lines.headI).map jsTrim
  let sampleRows := ((lines.drop 1).take 5).map fun row => jsSplit ',' row
  { rowCount := estimatedTotalRows lines fileSize
    colCount := headers.length
    columns := headers.enum.map fun p =>
      let values := sampleRows.map fun row => cellVal row p.1
      let allValuesInCol := ((lines.drop 1).take 100).map fun l => cellVal (jsSplit ',' l) p.1
      { name := p.2
        type := if values.all numericCell then ColType.numeric else ColType.categorical
        uniqueCount := allValuesInCol.dedup.length
        sample := values.take 3 }
    data := ((lines.drop 1).take 100).map fun line =>
      let values := jsSplit ',' line
      headers.enum.map fun p =>
        match cellVal values p.1 with
        | none => none
        | some v =>
            some (if (jsNum v).isSome ∧ v ≠ "" then Sum.inr ((jsNum v).getD 0) else Sum.inl v) }

/-- `analyzeCSV`: reject on an empty decoded prefix or fewer than two
usable lines, otherwise resolve with the full summary. -/
def analyzeCSV (text : String) (fileSize : ℕ) : Except String DatasetStats :=
  if text = "" then Except.error ("Empty file")
  else if (splitCSVLines text fileSize).length < 2 then
    Except.error ("Invalid CSV: Not enough rows")
  else Except.ok (buildStats text fileSize)

/-! ## Generic list lemmas -/

theorem range_map_length {α : Type} (f : ℕ → α) (n : ℕ) :
    ((List.range n).map f).length = n := by simp

theorem range_map_get? {α : Type} (f : ℕ → α) {n i : ℕ} (h : i < n) :
    ((List.range n).map f).get? i = some (f i) := by
  rw [List.get?_map, List.get?_range h]; rfl

theorem range_map_getD {α : Type} (f : ℕ → α) {n i : ℕ} (h : i < n) (d : α) :
    ((List.range n).map f).getD i d = f i := by
  rw [List.getD_eq_getD_get?, range_map_get? f h]; rfl

theorem sum_range_map (f : ℕ → ℕ) (n : ℕ) :
    ((List.range n).map f).sum = ∑ i in Finset.range n, f i := by
  induction n with
  | zero => simp
  | succ n ih =>
      rw [List.range_succ, List.map_append, List.sum_append, Finset.sum_range_succ, ih]
      simp

theorem foldl_min_le_init : ∀ (l : List ℚ) (a : ℚ), l.foldl min a ≤ a := by
  intro l
  induction l with
  | nil => intro a; simp
  | cons x t ih =>
      intro a
      calc (x :: t).foldl min a = t.foldl min (min a x) := rfl
        _ ≤ min a x := ih (min a x)
        _ ≤ a := min_le_left _ _

theorem foldl_min_le_mem : ∀ (l : List ℚ) (a v : ℚ), v ∈ l → l.foldl min a ≤ v := by
  intro l
  induction l with
  | nil => intro a v hv; cases hv
  | cons x t ih =>
      intro a v hv
      rcases List.mem_cons.1 hv with rfl | hv
      · calc (v :: t).foldl min a = t.foldl min (min a v) := rfl
          _ ≤ min a v := foldl_min_le_init _ _
          _ ≤ v := min_le_right _ _
      · exact ih (min a x) v hv

theorem init_le_foldl_max : ∀ (l : List ℚ) (a : ℚ), a ≤ l.foldl max a := by
  intro l
  induction l with
  | nil => intro a; simp
  | cons x t ih =>
      intro a
      calc a ≤ max a x := le_max_left _ _
        _ ≤ t.foldl max (max a x) := ih (max a x)
        _ = (x :: t).foldl max a := rfl

theorem mem_le_foldl_max : ∀ (l : List ℚ) (a v : ℚ), v ∈ l → v ≤ l.foldl max a := by
  intro l
  induction l with
  | nil => intro a v hv; cases hv
  | cons x t ih =>
      intro a v hv
      rcases List.mem_cons.1 hv with rfl | hv
      · calc v ≤ max a v := le_max_right _ _
          _ ≤ t.foldl max (max a v) := init_le_foldl_max _ _
          _ = (v :: t).foldl max a := rfl
      · exact ih (max a x) v hv

theorem listMin_le {l : List ℚ} {v : ℚ} (hv : v ∈ l) : listMin l ≤ v := by
  cases l with
  | nil => cases hv
  | cons x t =>
      rcases List.mem_cons.1 hv with rfl | hv
      · exact foldl_min_le_init t v
      · exact foldl_min_le_mem t x v hv

theorem le_listMax {l : List ℚ} {v : ℚ} (hv : v ∈ l) : v ≤ listMax l := by
  cases l with
  | nil => cases hv
  | cons x t =>
      rcases List.mem_cons.1 hv with rfl | hv
      · exact init_le_foldl_max t v
      · exact mem_le_foldl_max t x v hv

theorem listMin_le_listMax {l : List ℚ} (hl : l ≠ []) : listMin l ≤ listMax l := by
  cases l with
  | nil => exact absurd rfl hl
  | cons x t =>
      exact le_trans (listMin_le (List.mem_cons_self x t)) (le_listMax (List.mem_cons_self x t))

theorem mem_le_sum_of_nonneg : ∀ (l : List ℝ), (∀ y ∈ l, 0 ≤ y) → ∀ y ∈ l, y ≤ l.sum := by
  intro l
  induction l with
  | nil => intro _ y hy; cases hy
  | cons x t ih =>
      intro h y hy
      rcases List.mem_cons.1 hy with rfl | hy
      · have : 0 ≤ t.sum := List.sum_nonneg fun z hz => h z (List.mem_cons_of_mem _ hz)
        simpa using this
      · have hx : 0 ≤ x := h x (List.mem_cons_self _ _)
        have := ih (fun z hz => h z (List.mem_cons_of_mem _ hz)) y hy
        calc y ≤ t.sum := this
          _ ≤ x + t.sum := by linarith
          _ = (x :: t).sum := by simp

theorem sorted_getD_le (l : List ℚ) (hl : l.Sorted (· ≤ ·)) {i j : ℕ}
    (hij : i ≤ j) (hj : j < l.length) : l.getD i 0 ≤ l.getD j 0 := by
  have hi : i < l.length := lt_of_le_of_lt hij hj
  rw [List.getD_eq_get l 0 hi, List.getD_eq_get l 0 hj]
  exact hl.rel_get_of_le (by exact hij)

/-! ## Binning lemmas -/

theorem countBins_length (idx : ℚ → ℤ) (bc : ℕ) (data : List ℚ) :
    (countBins idx bc data).length = bc := by simp [countBins]

theorem countBins_getD (idx : ℚ → ℤ) {bc : ℕ} (data : List ℚ) {i : ℕ} (h : i < bc) :
    (countBins idx bc data).getD i 0 = data.countP fun v => idx v = (i : ℤ) := by
  unfold countBins
  exact range_map_getD _ h 0

theorem countBins_get? (idx : ℚ → ℤ) {bc : ℕ} (data : List ℚ) {i : ℕ} (h : i < bc) :
    (countBins idx bc data).get? i = some (data.countP fun v => idx v = (i : ℤ)) := by
  unfold countBins
  exact range_map_get? _ h

/-- Every value whose bin index is in range is counted in exactly one bin, so
the bin counts sum to the number of values. -/
theorem countBins_sum (idx : ℚ → ℤ) (bc : ℕ) (data : List ℚ)
    (h : ∀ v ∈ data, 0 ≤ idx v ∧ idx v < (bc : ℤ)) :
    (countBins idx bc data).sum = data.length := by
  unfold countBins
  rw [sum_range_map]
  induction data with
  | nil => simp
  | cons v t ih =>
      have hv := h v (List.mem_cons_self _ _)
      have ht := ih fun w hw => h w (List.mem_cons_of_mem _ hw)
      simp only [List.countP_cons, decide_eq_true_eq]
      rw [Finset.sum_add_distrib, ht]
      have hk : ((idx v).toNat : ℤ) = idx v := Int.toNat_of_nonneg hv.1
      have hklt : (idx v).toNat < bc := by
        have := hv.2
        omega
      have : ∀ i ∈ Finset.range bc,
          (if idx v = (i : ℤ) then 1 else 0) = if i = (idx v).toNat then 1 else 0 := by
        intro i _
        by_cases hi : i = (idx v).toNat
        · subst hi; rw [if_pos rfl, if_pos hk.symm]
        · rw [if_neg hi, if_neg]
          intro hcontra
          exact hi (by omega)
      calc t.length + ∑ i in Finset.range bc, (if idx v = (i : ℤ) then 1 else 0)
          = t.length + ∑ i in Finset.range bc, (if i = (idx v).toNat then 1 else 0) := by
            rw [Finset.sum_congr rfl this]
        _ = t.length + 1 := by rw [Finset.sum_ite_eq' (Finset.range bc)]
                               simp [Finset.mem_range.2 hklt]
        _ = (v :: t).length := by simp [Nat.add_comm]

/-- `arr[j] || d` in terms of `getD`: the neighbour's count is used exactly
when the index is in range and the count is nonzero. -/
theorem jsOr_jsIdx (arr : List ℕ) (j : ℤ) (d : ℕ) :
    jsOr (jsIdx arr j) d =
      if 0 ≤ j ∧ j.toNat < arr.length ∧ arr.getD j.toNat 0 ≠ 0
      then arr.getD j.toNat 0 else d := by
  unfold jsIdx
  by_cases hj : j < 0
  · rw [if_pos hj, if_neg (fun h => absurd h.1 (by omega))]
    rfl
  · rw [if_neg hj]
    by_cases hlen : j.toNat < arr.length
    · rw [List.get?_eq_get hlen]
      have hgd : arr.getD j.toNat 0 = arr.get ⟨j.toNat, hlen⟩ := List.getD_eq_get arr 0 hlen
      cases hval : arr.get ⟨j.toNat, hlen⟩ with
      | zero =>
          rw [if_neg (fun h => h.2.2 (by rw [hgd, hval]))]
          rfl
      | succ k =>
          rw [if_pos ⟨not_lt.1 hj, hlen, by rw [hgd, hval]; exact Nat.succ_ne_zero k⟩,
            hgd, hval]
          rfl
    · rw [List.get?_eq_none.2 (not_lt.1 hlen), if_neg (fun h => hlen h.2.1)]
      rfl

/-- The JavaScript `||` smoothing agrees with the amended description:
a neighbour is used exactly when it is in range and its count is nonzero. -/
theorem smoothBins_eq_smoothAmended (arr : List ℕ) :
    smoothBins arr = smoothAmended arr := by
  unfold smoothBins smoothAmended
  apply List.map_congr_left
  intro i hi
  have hi' : i < arr.length := List.mem_range.1 hi
  dsimp only
  rw [jsOr_jsIdx, jsOr_jsIdx]
  have ht1 : ((i : ℤ) - 1).toNat = i - 1 := by omega
  have ht2 : ((i : ℤ) + 1).toNat = i + 1 := by omega
  rw [ht1, ht2]
  have hc1 : (0 ≤ (i : ℤ) - 1 ∧ i - 1 < arr.length ∧ arr.getD (i - 1) 0 ≠ 0)
      ↔ (1 ≤ i ∧ arr.getD (i - 1) 0 ≠ 0) := by
    constructor
    · rintro ⟨a, _, c⟩; exact ⟨by omega, c⟩
    · rintro ⟨a, b⟩; exact ⟨by omega, by omega, b⟩
  have hc2 : (0 ≤ (i : ℤ) + 1 ∧ i + 1 < arr.length ∧ arr.getD (i + 1) 0 ≠ 0)
      ↔ (i + 1 < arr.length ∧ arr.getD (i + 1) 0 ≠ 0) := by
    constructor
    · rintro ⟨_, b, c⟩; exact ⟨b, c⟩
    · rintro ⟨a, b⟩; exact ⟨by omega, a, b⟩
  simp only [hc1, hc2]
  ring

/-- The y-coordinates produced by `getDensity` are exactly the smoothed bin
counts. -/
theorem range_map_getD_self {α : Type} (l : List α) (d : α) :
    (List.range l.length).map (fun i => l.getD i d) = l := by
  apply List.ext_get?
  intro i
  by_cases h : i < l.length
  · rw [range_map_get? _ h, List.get?_eq_get h, List.getD_eq_get l d h]
  · have h1 : ((List.range l.length).map fun i => l.getD i d).length ≤ i := by
      simpa using not_lt.1 h
    rw [List.get?_eq_none.2 h1, List.get?_eq_none.2 (not_lt.1 h)]

theorem getDensity_snd (data : List ℚ) (bc : ℕ) (hd : data ≠ []) :
    (getDensity data bc).map Prod.snd = smoothBins (densityBins data bc) := by
  unfold getDensity
  rw [if_neg (by simpa [List.length_eq_zero] using hd), List.map_map]
  exact range_map_getD_self (smoothBins (densityBins data bc)) 0

/-! ## Bin-index bounds -/

theorem jsRange_pos {data : List ℚ} (hd : data ≠ []) : 0 < jsRange data := by
  unfold jsRange
  split_ifs with h
  · norm_num
  · have hle : 0 ≤ listMax data - listMin data := by
      have := listMin_le_listMax hd
      linarith
    exact lt_of_le_of_ne hle (Ne.symm h)

theorem densityIdx_nonneg {data : List ℚ} {bc : ℕ} (hd : data ≠ []) (hbc : 0 < bc)
    {v : ℚ} (hv : v ∈ data) :
    0 ≤ densityIdx (listMin data) (jsRange data) bc v := by
  unfold densityIdx
  apply le_min
  · apply Int.floor_nonneg.2
    have h1 : 0 ≤ v - listMin data := sub_nonneg.2 (listMin_le hv)
    have h2 : 0 ≤ (v - listMin data) / jsRange data := div_nonneg h1 (jsRange_pos hd).le
    positivity
  · omega

theorem densityIdx_lt (mn range : ℚ) (bc : ℕ) (v : ℚ) :
    densityIdx mn range bc v < (bc : ℤ) := by
  unfold densityIdx
  have := min_le_right ⌊((v - mn) / range) * (bc : ℚ)⌋ ((bc : ℤ) - 1)
  omega

theorem densityIdx_max {data : List ℚ} {bc : ℕ}
    (hlt : listMin data < listMax data) :
    densityIdx (listMin data) (jsRange data) bc (listMax data) = (bc : ℤ) - 1 := by
  have hne : listMax data - listMin data ≠ 0 := sub_ne_zero.2 (ne_of_gt hlt)
  have hr : jsRange data = listMax data - listMin data := by
    unfold jsRange
    exact if_neg hne
  unfold densityIdx
  rw [hr, div_self hne, one_mul, Int.floor_natCast]
  exact min_eq_right (by omega)

theorem histBinSize_pos {vals : List ℚ} (hd : vals ≠ []) : 0 < histBinSize vals := by
  unfold histBinSize
  split_ifs with h
  · norm_num
  · have hle : 0 ≤ (listMax vals - listMin vals) / 15 := by
      have := listMin_le_listMax hd
      have h1 : 0 ≤ listMax vals - listMin vals := by linarith
      positivity
    exact lt_of_le_of_ne hle (Ne.symm h)

theorem histIdx_nonneg {vals : List ℚ} (hd : vals ≠ []) {v : ℚ} (hv : v ∈ vals) :
    0 ≤ histIdx vals v := by
  unfold histIdx
  apply le_min
  · apply Int.floor_nonneg.2
    have h1 : 0 ≤ v - listMin vals := sub_nonneg.2 (listMin_le hv)
    exact div_nonneg h1 (histBinSize_pos hd).le
  · omega

theorem histIdx_lt (vals : List ℚ) (v : ℚ) : histIdx vals v < 15 := by
  unfold histIdx
  have := min_le_right ⌊(v - listMin vals) / histBinSize vals⌋ (14 : ℤ)
  omega

theorem histIdx_max {vals : List ℚ} (hlt : listMin vals < listMax vals) :
    histIdx vals (listMax vals) = 14 := by
  have hne : listMax vals - listMin vals ≠ 0 := sub_ne_zero.2 (ne_of_gt hlt)
  have hbs : histBinSize vals = (listMax vals - listMin vals) / 15 := by
    unfold histBinSize
    apply if_neg
    intro h
    exact hne (by field_simp at h; linarith)
  unfold histIdx
  rw [hbs, div_div_eq_mul_div, mul_comm, mul_div_assoc, div_self hne, mul_one]
  have : ⌊(15 : ℚ)⌋ = 15 := by norm_num
  rw [this]
  rfl

/-! ## Claim theorems -/

/-- C7: for all values `v` and output bounds `o1, o2` and every `a`,
`scale v a a o1 o2 = (o1 + o2) / 2`: the linear-scale function returns the
midpoint of the output range whenever the input range is degenerate. -/
theorem scale_degenerate_midpoint (v a o1 o2 : ℚ) :
    scale v a a o1 o2 = (o1 + o2) / 2 := by
  unfold scale
  rw [if_pos rfl]

/-- C9: `getQuantiles` applied to the empty list returns the all-zero
five-number summary instead of failing or indexing out of bounds. -/
theorem getQuantiles_nil : getQuantiles [] = ⟨0, 0, 0, 0, 0⟩ := rfl

/-- C5: for every dataset whose first numeric column yields at least one
parseable value, the histogram's 15 fixed-width bin counts sum to the
number of non-missing numeric values, and when min equals max the bin
width falls back to `1`. -/
theorem histBins_sum_length (vals : List ℚ) (hd : vals ≠ []) :
    (histBins vals).sum = vals.length ∧
    (listMax vals = listMin vals → histBinSize vals = 1) := by
  constructor
  · apply countBins_sum
    intro v hv
    refine ⟨histIdx_nonneg hd hv, ?_⟩
    have := histIdx_lt vals v
    omega
  · intro h
    unfold histBinSize
    rw [if_pos (by rw [h]; simp)]

/-- Witness for C5 at the concrete column `[1, 2, 3]`. -/
theorem histBins_sum_length_witness :
    ([(1 : ℚ), 2, 3] ≠ []) ∧ (histBins [(1 : ℚ), 2, 3]).sum = 3 := by
  have hd : ([(1 : ℚ), 2, 3] ≠ []) := List.cons_ne_nil _ _
  exact ⟨hd, (histBins_sum_length [1, 2, 3] hd).1⟩

/-- C10 (amended): in both density and histogram binning every bin index is
clamped into `[0, binCount)`, so every bin-array access is in bounds; and
whenever the data has two distinct values (`min < max`) the maximum value is
counted in the last bin.  (When all values coincide, the maximum lands in
bin 0 instead — see the counterexample.) -/
theorem binIdx_clamped (data : List ℚ) (bc : ℕ) (hd : data ≠ []) (hbc : 0 < bc) :
    (∀ v ∈ data, 0 ≤ densityIdx (listMin data) (jsRange data) bc v ∧
        densityIdx (listMin data) (jsRange data) bc v < (bc : ℤ)) ∧
    (listMin data < listMax data →
        densityIdx (listMin data) (jsRange data) bc (listMax data) = (bc : ℤ) - 1) ∧
    (∀ v ∈ data, 0 ≤ histIdx data v ∧ histIdx data v < 15) ∧
    (listMin data < listMax data → histIdx data (listMax data) = 14) := by
  refine ⟨fun v hv => ⟨densityIdx_nonneg hd hbc hv, densityIdx_lt _ _ _ _⟩,
    fun hlt => densityIdx_max hlt,
    fun v hv => ⟨histIdx_nonneg hd hv, histIdx_lt _ _⟩,
    fun hlt => histIdx_max hlt⟩

/-- Witness for C10 at the value `2` of the column `[0, 2]` with 30 bins. -/
theorem binIdx_clamped_witness :
    ([(0 : ℚ), 2] ≠ []) ∧ 0 < 30 ∧
    (0 ≤ densityIdx (listMin [(0 : ℚ), 2]) (jsRange [(0 : ℚ), 2]) 30 2 ∧
      densityIdx (listMin [(0 : ℚ), 2]) (jsRange [(0 : ℚ), 2]) 30 2 < (30 : ℤ)) := by
  have hd : ([(0 : ℚ), 2] ≠ []) := List.cons_ne_nil _ _
  have hbc : (0 : ℕ) < 30 := by norm_num
  exact ⟨hd, hbc, (binIdx_clamped [0, 2] 30 hd hbc).1 2 (by simp)⟩

/-- Counterexample for C10 as stated: on the constant column `[5, 5]` the
maximum value is counted in bin 0, not in the last bin (29 for the density
branch, 14 for the histogram branch). -/
theorem binIdx_lastbin_claim_cex :
    densityIdx (listMin [(5 : ℚ), 5]) (jsRange [(5 : ℚ), 5]) 30 (listMax [(5 : ℚ), 5]) = 0 ∧
    ((0 : ℤ) ≠ 30 - 1) ∧
    histIdx [(5 : ℚ), 5] (listMax [(5 : ℚ), 5]) = 0 ∧ ((0 : ℤ) ≠ 14) := by
  have hmin : listMin [(5 : ℚ), 5] = 5 := by simp [listMin]
  have hmax : listMax [(5 : ℚ), 5] = 5 := by simp [listMax]
  have hrange : jsRange [(5 : ℚ), 5] = 1 := by
    unfold jsRange
    rw [hmin, hmax, if_pos (by norm_num)]
  have hbs : histBinSize [(5 : ℚ), 5] = 1 := by
    unfold histBinSize
    rw [hmin, hmax, if_pos (by norm_num)]
  refine ⟨?_, by norm_num, ?_, by norm_num⟩
  · unfold densityIdx
    rw [hmin, hmax, hrange]
    norm_num
  · unfold histIdx
    rw [hmin, hmax, hbs]
    norm_num

/-- C1 (amended): for every non-empty value list the density/violin/ridgeline
curve's y-values are the bin counts smoothed as `(prev + 2·curr + next)/4`,
where a neighbour that is out of range *or has a zero count* is replaced by
the current bin's own count; an in-range neighbour contributes its actual
count only when that count is nonzero. -/
theorem getDensity_smoothing_amended (data : List ℚ) (bc : ℕ) (hd : data ≠ []) :
    (getDensity data bc).map Prod.snd = smoothAmended (densityBins data bc) := by
  rw [getDensity_snd data bc hd, smoothBins_eq_smoothAmended]

/-- Witness for C1 at the column `[0, 2]` with the density chart's 30 bins. -/
theorem getDensity_smoothing_amended_witness :
    ([(0 : ℚ), 2] ≠ []) ∧
    (getDensity [(0 : ℚ), 2] 30).map Prod.snd = smoothAmended (densityBins [(0 : ℚ), 2] 30) := by
  have hd : ([(0 : ℚ), 2] ≠ []) := List.cons_ne_nil _ _
  exact ⟨hd, getDensity_smoothing_amended [0, 2] 30 hd⟩

/-- Counterexample for C1 as stated: on the column `[0, 2]` with 30 bins the
code's curve differs from the claimed smoothing (in which every in-range
neighbour contributes its actual count).  At bin 0 the code yields `1`
because the in-range neighbour bin 1 has count `0` and is therefore
replaced by the current count, while the claimed formula yields `3/4`. -/
theorem getDensity_smoothing_claim_cex :
    (getDensity [(0 : ℚ), 2] 30).map Prod.snd ≠ smoothClaim (densityBins [(0 : ℚ), 2] 30) := by
  have hd : ([(0 : ℚ), 2] ≠ []) := List.cons_ne_nil _ _
  have hmn : listMin [(0 : ℚ), 2] = 0 := by norm_num [listMin]
  have hrange : jsRange [(0 : ℚ), 2] = 2 := by norm_num [jsRange, listMin, listMax]
  have h0 : densityIdx 0 2 30 (0 : ℚ) = 0 := by norm_num [densityIdx]
  have h2 : densityIdx 0 2 30 (2 : ℚ) = 29 := by norm_num [densityIdx]
  have hb : densityBins [(0 : ℚ), 2] 30 = countBins (densityIdx 0 2 30) 30 [0, 2] := by
    unfold densityBins
    rw [hmn, hrange]
  have hb0 : (densityBins [(0 : ℚ), 2] 30).getD 0 0 = 1 := by
    rw [hb, countBins_getD _ _ (by norm_num)]
    simp [List.countP_cons, h0, h2]
  have hgd1 : (densityBins [(0 : ℚ), 2] 30).getD 1 0 = 0 := by
    rw [hb, countBins_getD _ _ (by norm_num)]
    simp [List.countP_cons, h0, h2]
  have hlen : (densityBins [(0 : ℚ), 2] 30).length = 30 := by
    rw [hb]
    exact countBins_length _ _ _
  have hL : ((getDensity [(0 : ℚ), 2] 30).map Prod.snd).getD 0 0 = 1 := by
    rw [getDensity_snd _ _ hd]
    unfold smoothBins
    simp only [hlen]
    rw [range_map_getD _ (by norm_num : (0 : ℕ) < 30) 0]
    rw [jsOr_jsIdx, jsOr_jsIdx, hb0]
    rw [if_neg (fun hcc => by have := hcc.1; omega)]
    have ht : (((0 : ℕ) : ℤ) + 1).toNat = 1 := by omega
    rw [ht, hgd1, if_neg (fun hcc => hcc.2.2 rfl)]
    norm_num
  have hR : (smoothClaim (densityBins [(0 : ℚ), 2] 30)).getD 0 0 = 3 / 4 := by
    unfold smoothClaim
    simp only [hlen]
    rw [range_map_getD _ (by norm_num : (0 : ℕ) < 30) 0]
    rw [if_neg (by omega : ¬ (1 ≤ 0)), if_pos (by norm_num : 0 + 1 < 30)]
    simp only [zero_add]
    rw [hb0, hgd1]
    norm_num
  intro h
  have hc := congrArg (fun l => l.getD 0 (0 : ℚ)) h
  simp only at hc
  rw [hL, hR] at hc
  norm_num at hc

/-- C6: for every non-empty list the floor-index five-number summary
satisfies `min ≤ q1 ≤ median ≤ q3 ≤ max`, and on `[1, 2, 3, 4, 100]` it
gives `q1 = 2`, `median = 3`, `q3 = 4`. -/
theorem getQuantiles_monotone :
    (∀ data : List ℚ, data ≠ [] →
      (getQuantiles data).min ≤ (getQuantiles data).q1 ∧
      (getQuantiles data).q1 ≤ (getQuantiles data).median ∧
      (getQuantiles data).median ≤ (getQuantiles data).q3 ∧
      (getQuantiles data).q3 ≤ (getQuantiles data).max) ∧
    (getQuantiles [1, 2, 3, 4, 100]).q1 = 2 ∧
    (getQuantiles [1, 2, 3, 4, 100]).median = 3 ∧
    (getQuantiles [1, 2, 3, 4, 100]).q3 = 4 := by
  constructor
  · intro data hd
    unfold getQuantiles
    rw [if_neg (by simpa [List.length_eq_zero] using hd)]
    have hsorted : (data.insertionSort (· ≤ ·)).Sorted (· ≤ ·) :=
      List.sorted_insertionSort _ _
    set sorted := data.insertionSort (· ≤ ·) with hs
    have hn : 0 < sorted.length := by
      rw [hs, List.length_insertionSort]
      exact List.length_pos.2 hd
    have hcast : (0 : ℚ) < (sorted.length : ℚ) := by exact_mod_cast hn
    have hq1 : ⌊(sorted.length : ℚ) * (0.25 : ℚ)⌋ ≤ ⌊(sorted.length : ℚ) * (0.5 : ℚ)⌋ :=
      Int.floor_le_floor (by nlinarith)
    have hq2 : ⌊(sorted.length : ℚ) * (0.5 : ℚ)⌋ ≤ ⌊(sorted.length : ℚ) * (0.75 : ℚ)⌋ :=
      Int.floor_le_floor (by nlinarith)
    have hq0 : 0 ≤ ⌊(sorted.length : ℚ) * (0.25 : ℚ)⌋ :=
      Int.floor_nonneg.2 (by nlinarith)
    have hq3 : ⌊(sorted.length : ℚ) * (0.75 : ℚ)⌋ < sorted.length :=
      Int.floor_lt.2 (by push_cast; nlinarith)
    have hi3 : (⌊(sorted.length : ℚ) * (0.75 : ℚ)⌋).toNat ≤ sorted.length - 1 := by omega
    have hi1 : (⌊(sorted.length : ℚ) * (0.25 : ℚ)⌋).toNat ≤
        (⌊(sorted.length : ℚ) * (0.5 : ℚ)⌋).toNat := by omega
    have hi2 : (⌊(sorted.length : ℚ) * (0.5 : ℚ)⌋).toNat ≤
        (⌊(sorted.length : ℚ) * (0.75 : ℚ)⌋).toNat := by omega
    have hlast : sorted.length - 1 < sorted.length := by omega
    refine ⟨?_, ?_, ?_, ?_⟩
    · exact sorted_getD_le sorted hsorted (Nat.zero_le _) (by omega)
    · exact sorted_getD_le sorted hsorted hi1 (by omega)
    · exact sorted_getD_le sorted hsorted hi2 (by omega)
    · exact sorted_getD_le sorted hsorted hi3 hlast
  · have hsorted : ([(1 : ℚ), 2, 3, 4, 100]).Sorted (· ≤ ·) := by
      simp [List.sorted_cons]
      norm_num
    have hs : ([(1 : ℚ), 2, 3, 4, 100]).insertionSort (· ≤ ·) = [1, 2, 3, 4, 100] :=
      hsorted.insertionSort_eq
    unfold getQuantiles
    rw [if_neg (by simp)]
    rw [hs]
    have h1 : (⌊(([(1 : ℚ), 2, 3, 4, 100]).length : ℚ) * (0.25 : ℚ)⌋).toNat = 1 := by
      norm_num
    have h2 : (⌊(([(1 : ℚ), 2, 3, 4, 100]).length : ℚ) * (0.5 : ℚ)⌋).toNat = 2 := by
      norm_num
      rfl
    have h3 : (⌊(([(1 : ℚ), 2, 3, 4, 100]).length : ℚ) * (0.75 : ℚ)⌋).toNat = 3 := by
      norm_num
      rfl
    dsimp only
    rw [h1, h2, h3]
    exact ⟨rfl, rfl, rfl⟩

/-- Witness for C6 at the concrete column `[1, 2, 3, 4, 100]`. -/
theorem getQuantiles_monotone_witness :
    ([(1 : ℚ), 2, 3, 4, 100] ≠ []) ∧
    (getQuantiles [(1 : ℚ), 2, 3, 4, 100]).min ≤ (getQuantiles [(1 : ℚ), 2, 3, 4, 100]).q1 ∧
    (getQuantiles [(1 : ℚ), 2, 3, 4, 100]).q1 ≤ (getQuantiles [(1 : ℚ), 2, 3, 4, 100]).median ∧
    (getQuantiles [(1 : ℚ), 2, 3, 4, 100]).median ≤ (getQuantiles [(1 : ℚ), 2, 3, 4, 100]).q3 ∧
    (getQuantiles [(1 : ℚ), 2, 3, 4, 100]).q3 ≤ (getQuantiles [(1 : ℚ), 2, 3, 4, 100]).max := by
  have hd : ([(1 : ℚ), 2, 3, 4, 100] ≠ []) := List.cons_ne_nil _ _
  exact ⟨hd, getQuantiles_monotone.1 [1, 2, 3, 4, 100] hd⟩

/-- C4: `analyzeCSV` fails — rejecting with an error and producing no
partial summary — if and only if the decoded prefix is empty or fewer than
2 non-blank lines remain after dropping the possibly-truncated final line;
in every other case it resolves with a full summary. -/
theorem analyzeCSV_error_iff (text : String) (n : ℕ) :
    (∃ e, analyzeCSV text n = Except.error e) ↔
      (text = "" ∨ (splitCSVLines text n).length < 2) := by
  unfold analyzeCSV
  split_ifs with h1 h2
  · simp [h1]
  · simp [h1, h2]
  · simp [h1, h2]

/-- C3: the estimated row count of a resolved `analyzeCSV` run equals the
number of non-blank sampled lines minus 1 when the file fits in one 50 KiB
chunk, and `⌊(fileSize / CHUNK_SIZE) * sampledLineCount⌋` otherwise; the
one-chunk input `"a,b\n1,x\n2,y\n3,z\n"` yields estimated row count 3. -/
theorem analyzeCSV_rowCount :
    (∀ (text : String) (n : ℕ) (s : DatasetStats), analyzeCSV text n = Except.ok s →
      s.rowCount =
        if n ≤ CHUNK_SIZE then (splitCSVLines text n).length - 1
        else (⌊((n : ℚ) / (CHUNK_SIZE : ℚ)) * ((splitCSVLines text n).length : ℚ)⌋).toNat) ∧
    (analyzeCSV ("a,b\n1,x\n2,y\n3,z\n") 16).toOption.map DatasetStats.rowCount = some 3 := by
  constructor
  · intro text n s h
    unfold analyzeCSV at h
    by_cases h1 : text = ""
    · rw [if_pos h1] at h
      simp at h
    rw [if_neg h1] at h
    by_cases h2 : (splitCSVLines text n).length < 2
    · rw [if_pos h2] at h
      simp at h
    rw [if_neg h2] at h
    injection h with hs
    subst hs
    have hrc : (buildStats text n).rowCount = estimatedTotalRows (splitCSVLines text n) n :=
      rfl
    rw [hrc]
    unfold estimatedTotalRows
    rcases le_or_lt n CHUNK_SIZE with hle | hlt
    · rw [if_neg (by omega), if_pos hle]
    · rw [if_pos (by omega), if_neg (by omega)]
  · rfl

/-- Witness for C3: the two-line input `"a\nb"` of size 3 resolves, and its
row count satisfies the claimed formula. -/
theorem analyzeCSV_rowCount_witness :
    analyzeCSV ("a\nb") 3 =
      Except.ok ⟨1, 1, [⟨"a", ColType.categorical, 1, [some "b"]⟩], [[some (Sum.inl "b")]]⟩ ∧
    ((⟨1, 1, [⟨"a", ColType.categorical, 1, [some "b"]⟩], [[some (Sum.inl "b")]]⟩ :
        DatasetStats)).rowCount =
      (if 3 ≤ CHUNK_SIZE then (splitCSVLines ("a\nb") 3).length - 1
       else (⌊((3 : ℚ) / (CHUNK_SIZE : ℚ)) * ((splitCSVLines ("a\nb") 3).length : ℚ)⌋).toNat) := by
  refine ⟨rfl, ?_⟩
  exact analyzeCSV_rowCount.1 ("a\nb") 3
    ⟨1, 1, [⟨"a", ColType.categorical, 1, [some "b"]⟩], [[some (Sum.inl "b")]]⟩ rfl

/-! ## Correlation lemmas -/

theorem sum_sq_sub_mean (l : List ℝ) (t : ℝ) :
    (l.map fun v => (v - t) ^ 2).sum =
      (l.map fun v => v * v).sum - 2 * t * l.sum + (l.length : ℝ) * t ^ 2 := by
  induction l with
  | nil => simp
  | cons x xs ih =>
      simp only [List.map_cons, List.sum_cons, ih, List.length_cons]
      push_cast
      ring

theorem zip_self_mul_sum (x : List ℝ) :
    ((x.zip x).map fun p => p.1 * p.2).sum = (x.map fun v => v * v).sum := by
  induction x with
  | nil => simp
  | cons c cs ih => simp [List.zip_cons_cons, ih]

/-- The Pearson variance term `n·Σv² − (Σv)²` is positive whenever the list
holds two distinct values. -/
theorem var_term_pos {x : List ℝ} {a b : ℝ} (ha : a ∈ x) (hb : b ∈ x) (hab : a ≠ b) :
    0 < (x.length : ℝ) * (x.map fun v => v * v).sum - x.sum * x.sum := by
  have hne : x ≠ [] := by rintro rfl; cases ha
  have hn : 0 < x.length := List.length_pos.2 hne
  have hncast : (0 : ℝ) < (x.length : ℝ) := by exact_mod_cast hn
  set μ := x.sum / (x.length : ℝ) with hμ
  have hμx : (x.length : ℝ) * μ = x.sum := by field_simp [hμ]
  have hc : ∃ c ∈ x, c ≠ μ := by
    by_contra hall
    push_neg at hall
    exact hab ((hall a ha).trans (hall b hb).symm)
  obtain ⟨c, hcx, hcμ⟩ := hc
  have hnonneg : ∀ y ∈ (x.map fun v => (v - μ) ^ 2), 0 ≤ y := by
    intro y hy
    obtain ⟨v, _, rfl⟩ := List.mem_map.1 hy
    positivity
  have hterm : (c - μ) ^ 2 ≤ (x.map fun v => (v - μ) ^ 2).sum :=
    mem_le_sum_of_nonneg _ hnonneg _ (List.mem_map_of_mem _ hcx)
  have hcpos : 0 < (c - μ) ^ 2 := by
    have := sub_ne_zero.2 hcμ
    positivity
  have hpos : 0 < (x.map fun v => (v - μ) ^ 2).sum := lt_of_lt_of_le hcpos hterm
  have key : (x.length : ℝ) * (x.map fun v => (v - μ) ^ 2).sum =
      (x.length : ℝ) * (x.map fun v => v * v).sum - x.sum * x.sum := by
    rw [sum_sq_sub_mean]
    calc (x.length : ℝ) * ((x.map fun v => v * v).sum - 2 * μ * x.sum + (x.length : ℝ) * μ ^ 2)
        = (x.length : ℝ) * (x.map fun v => v * v).sum - 2 * ((x.length : ℝ) * μ) * x.sum
            + ((x.length : ℝ) * μ) * ((x.length : ℝ) * μ) := by ring
      _ = (x.length : ℝ) * (x.map fun v => v * v).sum - x.sum * x.sum := by rw [hμx]; ring
  have := mul_pos hncast hpos
  rw [key] at this
  exact this

/-- Self-correlation is exactly 1 for a column holding two distinct values. -/
theorem corr_self_eq_one (x : List ℝ) (h : ∃ a ∈ x, ∃ b ∈ x, a ≠ b) :
    calculateCorrelation x x = 1 := by
  obtain ⟨a, ha, b, hb, hab⟩ := h
  have hne : x ≠ [] := by rintro rfl; cases ha
  have hlen0 : x.length ≠ 0 := fun hc => hne (List.length_eq_zero.1 hc)
  unfold calculateCorrelation
  rw [if_neg (by simp [hlen0])]
  dsimp only
  rw [zip_self_mul_sum]
  set D := (x.length : ℝ) * (x.map fun v => v * v).sum - x.sum * x.sum with hD
  have hDpos : 0 < D := var_term_pos ha hb hab
  rw [Real.sqrt_mul_self hDpos.le, if_neg hDpos.ne']
  exact div_self hDpos.ne'

/-- Element lookup inside a `bind` whose blocks all have length `m`. -/
theorem flatMap_get? {α : Type} (f : ℕ → List α) (m : ℕ) (hf : ∀ i, (f i).length = m) :
    ∀ (l : List ℕ) (q r : ℕ), r < m →
      (l.flatMap f).get? (q * m + r) = (l.get? q).bind fun a => (f a).get? r := by
  intro l
  induction l with
  | nil => intro q r _; simp
  | cons a t ih =>
      intro q r hr
      cases q with
      | zero =>
          rw [List.flatMap_cons]
          simp only [Nat.zero_mul, Nat.zero_add]
          rw [List.get?_append (by rw [hf a]; exact hr)]
          rfl
      | succ q' =>
          rw [List.flatMap_cons]
          have hlen : (f a).length ≤ (q' + 1) * m + r := by
            rw [hf a]
            calc m ≤ (q' + 1) * m := Nat.le_mul_of_pos_left m (Nat.succ_pos q')
              _ ≤ (q' + 1) * m + r := Nat.le_add_right _ _
          rw [List.get?_append_right hlen]
          have hidx : (q' + 1) * m + r - (f a).length = q' * m + r := by
            rw [hf a]
            ring_nf
            omega
          rw [hidx, ih q' r hr]
          rfl

/-- C8: `calculateCorrelation` returns exactly 0 whenever its two input
lists have different lengths or are both empty — so in the heatmap, two
numeric columns yielding different numbers of parseable cells get
correlation 0 regardless of their values. -/
theorem calculateCorrelation_mismatch_zero (x y : List ℝ)
    (h : x.length ≠ y.length ∨ (x = [] ∧ y = [])) :
    calculateCorrelation x y = 0 := by
  unfold calculateCorrelation
  rcases h with h | ⟨hx, hy⟩
  · rw [if_pos (Or.inl h)]
  · subst hx
    subst hy
    rw [if_pos (Or.inr List.length_nil)]

/-- Witness for C8 at the mismatched pair `[1]` and `[]`. -/
theorem calculateCorrelation_mismatch_zero_witness :
    ([(1 : ℝ)].length ≠ ([] : List ℝ).length) ∧ calculateCorrelation [(1 : ℝ)] [] = 0 := by
  have h : ([(1 : ℝ)].length ≠ ([] : List ℝ).length) := by simp
  exact ⟨h, calculateCorrelation_mismatch_zero [1] [] (Or.inl h)⟩

/-- C2 (amended): in the heatmap correlation matrix, the diagonal entry of
every column that holds two distinct values equals 1 exactly; a constant
(or empty) column makes the variance term zero and its diagonal entry is 0
by the zero-denominator guard — see the counterexample. -/
theorem heatmap_diagonal_one (cols : List (List ℝ)) (i : ℕ) (hi : i < cols.length)
    (hvar : ∃ a ∈ cols.getD i [], ∃ b ∈ cols.getD i [], a ≠ b) :
    (heatmapMatrix cols).getD (i * cols.length + i) 0 = 1 := by
  unfold heatmapMatrix
  rw [List.getD_eq_getD_get?,
    flatMap_get? _ cols.length (fun a => by simp) _ _ _ hi,
    List.get?_range hi]
  show (((List.range cols.length).map fun j =>
      calculateCorrelation (cols.getD i []) (cols.getD j [])).get? i).getD 0 = 1
  rw [range_map_get? _ hi]
  show calculateCorrelation (cols.getD i []) (cols.getD i []) = 1
  exact corr_self_eq_one _ hvar

/-- Witness for C2 at the single two-valued column `[1, 2]`. -/
theorem heatmap_diagonal_one_witness :
    (0 < ([[(1 : ℝ), 2]] : List (List ℝ)).length) ∧
    (heatmapMatrix [[(1 : ℝ), 2]]).getD (0 * ([[(1 : ℝ), 2]] : List (List ℝ)).length + 0) 0 = 1 := by
  refine ⟨by norm_num, ?_⟩
  exact heatmap_diagonal_one [[(1 : ℝ), 2]] 0 (by norm_num)
    ⟨1, by simp, 2, by simp, by norm_num⟩

/-- Counterexample for C2 as stated: the dataset with the two numeric
columns `[5, 5]` and `[1, 2]` has a diagonal heatmap entry (for the
constant column) equal to 0, not 1. -/
theorem heatmap_diagonal_claim_cex :
    (heatmapMatrix [[(5 : ℝ), 5], [(1 : ℝ), 2]]).getD 0 0 ≠ 1 := by
  have h1 : calculateCorrelation [(5 : ℝ), 5] [(5 : ℝ), 5] = 0 := by
    unfold calculateCorrelation
    rw [if_neg (by simp)]
    dsimp only
    have hsum : ([(5 : ℝ), 5]).sum = 10 := by norm_num
    have hsq : (([(5 : ℝ), 5]).map fun v => v * v).sum = 50 := by norm_num
    have hzip : ((([(5 : ℝ), 5]).zip [(5 : ℝ), 5]).map fun p => p.1 * p.2).sum = 50 := by
      norm_num [List.zip_cons_cons]
    have hlen : (([(5 : ℝ), 5]).length : ℝ) = 2 := by norm_num
    rw [hsum, hsq, hzip, hlen]
    have hz : ((2 : ℝ) * 50 - 10 * 10) * ((2 : ℝ) * 50 - 10 * 10) = 0 := by norm_num
    rw [hz, Real.sqrt_zero, if_pos rfl]
  have hidx : (heatmapMatrix [[(5 : ℝ), 5], [(1 : ℝ), 2]]).getD 0 0 =
      calculateCorrelation [(5 : ℝ), 5] [(5 : ℝ), 5] := by
    simp [heatmapMatrix, List.range_succ]
  rw [hidx, h1]
  norm_num

end VizAssistant
